import Mathlib

/-!
Shallow embedding of the UTF-8 extended-character segmenter (src/lib.rs).

A byte buffer is a `List Nat` (each element a byte value). A Rust panic is
modelled as `Except.error` carrying a `Panic` value; the `Option` layer of
fallible Rust functions is kept inside the `Except`, so the type of a
function that may panic and may return `None` is
`Except Panic (Option _)`.
-/

/-- The ways the Rust code can panic: an out-of-bounds index (`bytes[0]` on an
empty slice), the explicit `panic!("invalid first byte ...")` which carries the
offending byte, and `split_at` called with an index past the end. -/
inductive Panic where
  | indexOutOfBounds : Panic
  | invalidFirstByte : Nat → Panic
  | splitOutOfBounds : Panic
deriving DecidableEq, Repr

/-- Embedding of `pub fn code_point_len(bytes: &[u8]) -> usize`.
`bytes[0]` on an empty slice is the `indexOutOfBounds` panic; the final
`panic!("invalid first byte ...")` is `invalidFirstByte` carrying the byte. -/
def code_point_len (bytes : List Nat) : Except Panic Nat :=
  match bytes with
  | [] => .error .indexOutOfBounds
  | first_byte :: _ =>
    if first_byte &&& 0b10000000 = 0 then .ok 1
    else if first_byte &&& 0b11100000 = 0b11000000 then .ok 2
    else if first_byte &&& 0b11110000 = 0b11100000 then .ok 3
    else if first_byte &&& 0b11111000 = 0b11110000 then .ok 4
    else .error (.invalidFirstByte first_byte)

/-- Embedding of `fn next_code_point(bytes: &[u8]) -> Option<(&[u8], &[u8])>`.
Rust's `split_at(mid)` panics when `mid > bytes.len()`; that guard is made
explicit here as the `splitOutOfBounds` panic. -/
def next_code_point (bytes : List Nat) : Except Panic (Option (List Nat × List Nat)) :=
  if bytes.isEmpty then .ok none
  else
    match code_point_len bytes with
    | .error e => .error e
    | .ok len =>
      if len ≤ bytes.length then .ok (some (bytes.take len, bytes.drop len))
      else .error .splitOutOfBounds

/-- The UTF-8 bytes of `pub const VARIATION_SELECTOR: &str = "\u{fe0f}"`. -/
def VARIATION_SELECTOR : List Nat := [0xef, 0xb8, 0x8f]

/-- The UTF-8 bytes of `pub const ZERO_WIDTH_JOINER: &str = "\u{200d}"`. -/
def ZERO_WIDTH_JOINER : List Nat := [0xe2, 0x80, 0x8d]

/-- Embedding of `fn variation_selector(bytes: &[u8]) -> Option<(&[u8], &[u8])>`.
Rust compares the decoded `&str` of the code point against the
`VARIATION_SELECTOR` constant; string equality in Rust is byte equality, so
the comparison is on the byte lists. -/
def variation_selector (bytes : List Nat) : Except Panic (Option (List Nat × List Nat)) :=
  match next_code_point bytes with
  | .error e => .error e
  | .ok none => .ok none
  | .ok (some (cp_bytes, remainder)) =>
    if cp_bytes = VARIATION_SELECTOR then .ok (some (cp_bytes, remainder))
    else .ok none

/-- Embedding of `fn zero_width_joiner(bytes: &[u8]) -> Option<(&[u8], &[u8])>`.
On a match with a following code point it returns
`&bytes[..joiner_len + join_with_len]`, i.e. a prefix of the input, paired
with the remainder after both; a dangling joiner returns just the joiner's
bytes and the remainder after it. -/
def zero_width_joiner (bytes : List Nat) : Except Panic (Option (List Nat × List Nat)) :=
  match next_code_point bytes with
  | .error e => .error e
  | .ok none => .ok none
  | .ok (some (joiner_bytes, remainder)) =>
    if joiner_bytes ≠ ZERO_WIDTH_JOINER then .ok none
    else
      match next_code_point remainder with
      | .error e => .error e
      | .ok (some (join_with_bytes, remainder2)) =>
        .ok (some (bytes.take (joiner_bytes.length + join_with_bytes.length), remainder2))
      | .ok none => .ok (some (joiner_bytes, remainder))

theorem code_point_len_pos {bytes : List Nat} {len : Nat}
    (h : code_point_len bytes = .ok len) : 1 ≤ len := by
  unfold code_point_len at h
  match bytes with
  | [] => exact absurd h (by simp)
  | b :: rest =>
    simp only at h
    split at h
    · cases h; omega
    · split at h
      · cases h; omega
      · split at h
        · cases h; omega
        · split at h
          · cases h; omega
          · cases h

theorem next_code_point_shrink {bytes c r : List Nat}
    (h : next_code_point bytes = .ok (some (c, r))) :
    c.length + r.length = bytes.length ∧ 1 ≤ c.length := by
  unfold next_code_point at h
  split at h
  · cases h
  · split at h
    · cases h
    · rename_i len hlen
      split at h
      · rename_i hle
        cases h
        have h1 := code_point_len_pos hlen
        constructor
        · simp [List.length_take, List.length_drop]
          omega
        · simp [List.length_take]
          omega
      · cases h

theorem zero_width_joiner_shrink {bytes j r : List Nat}
    (h : zero_width_joiner bytes = .ok (some (j, r))) :
    r.length < bytes.length := by
  unfold zero_width_joiner at h
  split at h
  · cases h
  · cases h
  · rename_i cp rem hncp
    split at h
    · cases h
    · split at h
      · cases h
      · rename_i jw rem2 hncp2
        cases h
        have h1 := next_code_point_shrink hncp
        have h2 := next_code_point_shrink hncp2
        omega
      · cases h
        have h1 := next_code_point_shrink hncp
        omega

/-- The `while let Some(..) = zero_width_joiner(remaining_bytes)` loop inside
`UTF8Chars::next`: accumulates `utf8_char_len` and advances
`remaining_bytes` until the recognizer returns no match. -/
def zwj_extend (utf8_char_len : Nat) (remaining_bytes : List Nat) :
    Except Panic (Nat × List Nat) :=
  match h : zero_width_joiner remaining_bytes with
  | .error e => .error e
  | .ok none => .ok (utf8_char_len, remaining_bytes)
  | .ok (some (joined_bytes, join_remaining)) =>
    zwj_extend (utf8_char_len + joined_bytes.length) join_remaining
termination_by remaining_bytes.length
decreasing_by exact zero_width_joiner_shrink h

/-- Embedding of `fn next(&mut self) -> Option<Self::Item>` of
`impl Iterator for UTF8Chars`. The iterator state is the `bytes` field
(the not-yet-consumed suffix); the result pairs the yielded item (if any)
with the state after the call. A `None` from the `?` on `next_code_point`
leaves the state untouched, as in the Rust source. -/
def UTF8Chars_next (bytes : List Nat) : Except Panic (Option (List Nat) × List Nat) :=
  if bytes.isEmpty then .ok (none, bytes)
  else
    match next_code_point bytes with
    | .error e => .error e
    | .ok none => .ok (none, bytes)
    | .ok (some (cp_bytes, remaining_bytes)) =>
      match variation_selector remaining_bytes with
      | .error e => .error e
      | .ok none =>
        match zwj_extend cp_bytes.length remaining_bytes with
        | .error e => .error e
        | .ok (utf8_char_len, final_remaining) =>
          .ok (some (bytes.take utf8_char_len), final_remaining)
      | .ok (some (variant_bytes, variant_remaining)) =>
        match zwj_extend (cp_bytes.length + variant_bytes.length) variant_remaining with
        | .error e => .error e
        | .ok (utf8_char_len, final_remaining) =>
          .ok (some (bytes.take utf8_char_len), final_remaining)

/-- Embedding of `fn utf8_chars(&self) -> UTF8Chars` from
`impl ToUTF8Chars for str`: it captures the text's bytes as the initial
iterator state. -/
def utf8_chars (text : List Nat) : List Nat := text

theorem zwj_extend_of_none {rem : List Nat} (len : Nat)
    (h : zero_width_joiner rem = .ok none) :
    zwj_extend len rem = .ok (len, rem) := by
  unfold zwj_extend
  split
  · rename_i heq; rw [h] at heq; cases heq
  · rfl
  · rename_i heq; rw [h] at heq; cases heq

theorem zwj_extend_of_some {rem j jr : List Nat} (len : Nat)
    (h : zero_width_joiner rem = .ok (some (j, jr))) :
    zwj_extend len rem = zwj_extend (len + j.length) jr := by
  conv_lhs => unfold zwj_extend
  split
  · rename_i heq; rw [h] at heq; cases heq
  · rename_i heq; rw [h] at heq; cases heq
  · rename_i j0 jr0 heq
    rw [h] at heq
    cases heq
    rfl

theorem zwj_extend_of_err {rem : List Nat} {e : Panic} (len : Nat)
    (h : zero_width_joiner rem = .error e) :
    zwj_extend len rem = .error e := by
  unfold zwj_extend
  split
  · rename_i heq; rw [h] at heq; cases heq; rfl
  · rename_i heq; rw [h] at heq; cases heq
  · rename_i heq; rw [h] at heq; cases heq

theorem zwj_extend_spec {rem rem2 : List Nat} {len len2 : Nat}
    (h : zwj_extend len rem = .ok (len2, rem2)) :
    len ≤ len2 ∧ rem2.length ≤ rem.length := by
  generalize hn : rem.length = n at *
  induction n using Nat.strong_induction_on generalizing rem len with
  | _ n ih =>
    match hz : zero_width_joiner rem with
    | .error e => rw [zwj_extend_of_err len hz] at h; cases h
    | .ok none =>
      rw [zwj_extend_of_none len hz] at h
      cases h
      omega
    | .ok (some (j, jr)) =>
      rw [zwj_extend_of_some len hz] at h
      have hlt : jr.length < n := by
        have := zero_width_joiner_shrink hz
        omega
      have := ih jr.length hlt h rfl
      omega

theorem UTF8Chars_next_shrink {bytes c rest : List Nat}
    (h : UTF8Chars_next bytes = .ok (some c, rest)) :
    rest.length < bytes.length := by
  unfold UTF8Chars_next at h
  split at h
  · cases h
  · split at h
    · cases h
    · cases h
    · rename_i cp rem hncp
      have h1 := next_code_point_shrink hncp
      split at h
      · cases h
      · split at h
        · cases h
        · rename_i hzw
          cases h
          have h2 := zwj_extend_spec hzw
          omega
      · rename_i v vrem hvs
        have hv : v.length + vrem.length = rem.length ∧ 1 ≤ v.length := by
          unfold variation_selector at hvs
          split at hvs
          · cases hvs
          · cases hvs
          · rename_i cp2 rem2 hncp2
            split at hvs
            · cases hvs
              exact next_code_point_shrink hncp2
            · cases hvs
        split at h
        · cases h
        · rename_i hzw
          cases h
          have h2 := zwj_extend_spec hzw
          omega

/-- The full scan: repeatedly call `UTF8Chars::next` and collect the yielded
extended characters, in order, until the iterator yields `None` (or the
underlying code panics). This is the observable behaviour of consuming the
iterator returned by `utf8_chars`. -/
def utf8_chars_list (bytes : List Nat) : Except Panic (List (List Nat)) :=
  match h : UTF8Chars_next bytes with
  | .error e => .error e
  | .ok (none, _) => .ok []
  | .ok (some c, rest) =>
    match utf8_chars_list rest with
    | .error e => .error e
    | .ok cs => .ok (c :: cs)
termination_by bytes.length
decreasing_by exact UTF8Chars_next_shrink h

theorem utf8_chars_list_of_none {bytes s : List Nat}
    (h : UTF8Chars_next bytes = .ok (none, s)) :
    utf8_chars_list bytes = .ok [] := by
  unfold utf8_chars_list
  split
  · rename_i heq; rw [h] at heq; cases heq
  · rfl
  · rename_i heq; rw [h] at heq; cases heq

theorem utf8_chars_list_of_some {bytes c rest : List Nat}
    (h : UTF8Chars_next bytes = .ok (some c, rest)) :
    utf8_chars_list bytes =
      match utf8_chars_list rest with
      | .error e => .error e
      | .ok cs => .ok (c :: cs) := by
  conv_lhs => unfold utf8_chars_list
  split
  · rename_i heq; rw [h] at heq; cases heq
  · rename_i heq; rw [h] at heq; cases heq
  · rename_i c0 rest0 heq
    rw [h] at heq
    cases heq
    rfl

/-- The result of the `(n+1)`-st call to `UTF8Chars::next` when the iterator
currently holds state `s` and is polled repeatedly (panics abort the run). -/
def iterate_next (s : List Nat) : Nat → Except Panic (Option (List Nat) × List Nat)
  | 0 => UTF8Chars_next s
  | n + 1 =>
    match UTF8Chars_next s with
    | .error e => .error e
    | .ok (_, s2) => iterate_next s2 n

theorem utf8_chars_list_of_err {bytes : List Nat} {e : Panic}
    (h : UTF8Chars_next bytes = .error e) :
    utf8_chars_list bytes = .error e := by
  unfold utf8_chars_list
  split
  · rename_i heq; rw [h] at heq; cases heq; rfl
  · rename_i heq; rw [h] at heq; cases heq
  · rename_i heq; rw [h] at heq; cases heq

theorem utf8_chars_list_cons_eq {bytes c rest : List Nat} {cs : List (List Nat)}
    (h1 : UTF8Chars_next bytes = .ok (some c, rest))
    (h2 : utf8_chars_list rest = .ok cs) :
    utf8_chars_list bytes = .ok (c :: cs) := by
  rw [utf8_chars_list_of_some h1, h2]

theorem utf8_chars_list_nil : utf8_chars_list [] = .ok [] :=
  utf8_chars_list_of_none rfl

/-- Step equation for `UTF8Chars_next` when the variation-selector recognizer
does not match. -/
theorem UTF8Chars_next_eq_no_vs {bytes cp rem fin : List Nat} {len : Nat}
    (h1 : next_code_point bytes = .ok (some (cp, rem)))
    (h2 : variation_selector rem = .ok none)
    (h3 : zwj_extend cp.length rem = .ok (len, fin)) :
    UTF8Chars_next bytes = .ok (some (bytes.take len), fin) := by
  match bytes with
  | [] => rw [show next_code_point [] = .ok none from rfl] at h1; cases h1
  | b :: bs =>
    unfold UTF8Chars_next
    rw [h1]
    simp only [List.isEmpty_cons, Bool.false_eq_true, if_false]
    simp only [h2, h3]

/-- Step equation for `UTF8Chars_next` when the variation-selector recognizer
matches. -/
theorem UTF8Chars_next_eq_vs {bytes cp rem v vrem fin : List Nat} {len : Nat}
    (h1 : next_code_point bytes = .ok (some (cp, rem)))
    (h2 : variation_selector rem = .ok (some (v, vrem)))
    (h3 : zwj_extend (cp.length + v.length) vrem = .ok (len, fin)) :
    UTF8Chars_next bytes = .ok (some (bytes.take len), fin) := by
  match bytes with
  | [] => rw [show next_code_point [] = .ok none from rfl] at h1; cases h1
  | b :: bs =>
    unfold UTF8Chars_next
    rw [h1]
    simp only [List.isEmpty_cons, Bool.false_eq_true, if_false]
    simp only [h2, h3]

/-!
Valid UTF-8 buffers. `utf8EncodeCP` is the standard UTF-8 encoding of a
Unicode scalar value; a buffer is valid UTF-8 exactly when it is a
concatenation of encodings of scalar values. These definitions are a model
of "valid UTF-8 text" (the precondition the Rust code documents); they do
not embed any function of the source.
-/

/-- The standard UTF-8 encoding of a Unicode scalar value `c`. -/
def utf8EncodeCP (c : Nat) : List Nat :=
  if c < 0x80 then [c]
  else if c < 0x800 then [0xc0 ||| (c >>> 6), 0x80 ||| (c &&& 0x3f)]
  else if c < 0x10000 then
    [0xe0 ||| (c >>> 12), 0x80 ||| ((c >>> 6) &&& 0x3f), 0x80 ||| (c &&& 0x3f)]
  else
    [0xf0 ||| (c >>> 18), 0x80 ||| ((c >>> 12) &&& 0x3f),
      0x80 ||| ((c >>> 6) &&& 0x3f), 0x80 ||| (c &&& 0x3f)]

/-- The scalar `c` is a Unicode scalar value: in range and not a surrogate. -/
def IsScalar (c : Nat) : Prop := c < 0x110000 ∧ (c < 0xd800 ∨ 0xdfff < c)

instance (c : Nat) : Decidable (IsScalar c) := by
  unfold IsScalar; infer_instance

/-- A byte buffer is valid UTF-8 when it is a concatenation of UTF-8
encodings of Unicode scalar values. -/
inductive ValidUTF8 : List Nat → Prop where
  | nil : ValidUTF8 []
  | cons (c : Nat) (rest : List Nat) : IsScalar c → ValidUTF8 rest →
      ValidUTF8 (utf8EncodeCP c ++ rest)

theorem byteClass1 : ∀ c, c < 128 → c &&& 128 = 0 := by decide

theorem byteClass2 : ∀ d, d < 32 →
    (192 ||| d) &&& 128 = 128 ∧ (192 ||| d) &&& 224 = 192 := by decide

theorem byteClass3 : ∀ d, d < 16 →
    (224 ||| d) &&& 128 = 128 ∧ (224 ||| d) &&& 224 = 224 ∧
    (224 ||| d) &&& 240 = 224 := by decide

theorem byteClass4 : ∀ d, d < 8 →
    (240 ||| d) &&& 128 = 128 ∧ (240 ||| d) &&& 224 = 224 ∧
    (240 ||| d) &&& 240 = 240 ∧ (240 ||| d) &&& 248 = 240 := by decide

theorem shiftRight6_eq (c : Nat) : c >>> 6 = c / 64 := by
  rw [Nat.shiftRight_eq_div_pow]

theorem shiftRight12_eq (c : Nat) : c >>> 12 = c / 4096 := by
  rw [Nat.shiftRight_eq_div_pow]

theorem shiftRight18_eq (c : Nat) : c >>> 18 = c / 262144 := by
  rw [Nat.shiftRight_eq_div_pow]

theorem and63_eq (c : Nat) : c &&& 63 = c % 64 := by
  have h : (63 : Nat) = 2 ^ 6 - 1 := by norm_num
  rw [h, Nat.and_pow_two_sub_one_eq_mod]

theorem utf8EncodeCP_ne_nil (c : Nat) : utf8EncodeCP c ≠ [] := by
  unfold utf8EncodeCP
  split
  · simp
  · split
    · simp
    · split
      · simp
      · simp

theorem code_point_len_cons (b : Nat) (rest : List Nat) :
    code_point_len (b :: rest) =
      if b &&& 128 = 0 then .ok 1
      else if b &&& 224 = 192 then .ok 2
      else if b &&& 240 = 224 then .ok 3
      else if b &&& 248 = 240 then .ok 4
      else .error (.invalidFirstByte b) := rfl

/-- The leading byte of the encoding of a scalar value decodes to exactly the
length of the encoding. -/
theorem code_point_len_encode (c : Nat) (rest : List Nat) (hc : IsScalar c) :
    code_point_len (utf8EncodeCP c ++ rest) = .ok (utf8EncodeCP c).length := by
  obtain ⟨hlt, -⟩ := hc
  unfold utf8EncodeCP
  by_cases h1 : c < 0x80
  · simp only [if_pos h1, List.cons_append, List.nil_append]
    rw [code_point_len_cons, if_pos (byteClass1 c h1)]
    rfl
  · by_cases h2 : c < 0x800
    · simp only [if_neg h1, if_pos h2, List.cons_append, List.nil_append]
      have hd : c >>> 6 < 32 := by rw [shiftRight6_eq]; omega
      have hb := byteClass2 (c >>> 6) hd
      rw [code_point_len_cons, hb.1, hb.2]
      norm_num
    · by_cases h3 : c < 0x10000
      · simp only [if_neg h1, if_neg h2, if_pos h3, List.cons_append, List.nil_append]
        have hd : c >>> 12 < 16 := by rw [shiftRight12_eq]; omega
        have hb := byteClass3 (c >>> 12) hd
        rw [code_point_len_cons, hb.1, hb.2.1, hb.2.2]
        norm_num
      · simp only [if_neg h1, if_neg h2, if_neg h3, List.cons_append, List.nil_append]
        have hd : c >>> 18 < 8 := by rw [shiftRight18_eq]; omega
        have hb := byteClass4 (c >>> 18) hd
        rw [code_point_len_cons, hb.1, hb.2.1, hb.2.2.1, hb.2.2.2]
        norm_num

theorem next_code_point_encode (c : Nat) (rest : List Nat) (hc : IsScalar c) :
    next_code_point (utf8EncodeCP c ++ rest) = .ok (some (utf8EncodeCP c, rest)) := by
  have hne : utf8EncodeCP c ≠ [] := utf8EncodeCP_ne_nil c
  unfold next_code_point
  have hemp : (utf8EncodeCP c ++ rest).isEmpty = false := by
    simp [List.isEmpty_iff, hne]
  rw [hemp]
  simp only [Bool.false_eq_true, if_false]
  have hle : (utf8EncodeCP c).length ≤ (utf8EncodeCP c ++ rest).length := by
    simp [List.length_append]
  simp only [code_point_len_encode c rest hc, if_pos hle, List.take_left, List.drop_left]

theorem take_len_append (a b c : List Nat) :
    (a ++ (b ++ c)).take (a.length + b.length) = a ++ b := by
  rw [← List.append_assoc, ← List.length_append, List.take_left]

theorem and63_lt (c : Nat) : c &&& 63 < 64 := by
  have h := Nat.and_le_right (n := c) (m := 63)
  omega

theorem encode_eq_vs_iff (c : Nat) (hc : IsScalar c) :
    (utf8EncodeCP c = VARIATION_SELECTOR) ↔ c = 0xfe0f := by
  constructor
  · intro h
    rw [show VARIATION_SELECTOR = [239, 184, 143] from rfl] at h
    unfold utf8EncodeCP at h
    split_ifs at h with h1 h2 h3
    · simp at h
    · simp at h
    · simp only [List.cons.injEq, and_true] at h
      have hd0 : c >>> 12 < 16 := by rw [shiftRight12_eq]; omega
      have k0 : ∀ d, d < 16 → (224 ||| d = 239 ↔ d = 15) := by decide
      have k1 : ∀ d, d < 64 → (128 ||| d = 184 ↔ d = 56) := by decide
      have k2 : ∀ d, d < 64 → (128 ||| d = 143 ↔ d = 15) := by decide
      have e0 : c >>> 12 = 15 := (k0 _ hd0).mp h.1
      have e1 : (c >>> 6) &&& 63 = 56 := (k1 _ (and63_lt _)).mp h.2.1
      have e2 : c &&& 63 = 15 := (k2 _ (and63_lt _)).mp h.2.2
      rw [shiftRight12_eq] at e0
      rw [shiftRight6_eq, and63_eq] at e1
      rw [and63_eq] at e2
      omega
    · simp at h
  · intro h
    subst h
    rfl

theorem encode_eq_zwj_iff (c : Nat) (hc : IsScalar c) :
    (utf8EncodeCP c = ZERO_WIDTH_JOINER) ↔ c = 0x200d := by
  constructor
  · intro h
    rw [show ZERO_WIDTH_JOINER = [226, 128, 141] from rfl] at h
    unfold utf8EncodeCP at h
    split_ifs at h with h1 h2 h3
    · simp at h
    · simp at h
    · simp only [List.cons.injEq, and_true] at h
      have hd0 : c >>> 12 < 16 := by rw [shiftRight12_eq]; omega
      have k0 : ∀ d, d < 16 → (224 ||| d = 226 ↔ d = 2) := by decide
      have k1 : ∀ d, d < 64 → (128 ||| d = 128 ↔ d = 0) := by decide
      have k2 : ∀ d, d < 64 → (128 ||| d = 141 ↔ d = 13) := by decide
      have e0 : c >>> 12 = 2 := (k0 _ hd0).mp h.1
      have e1 : (c >>> 6) &&& 63 = 0 := (k1 _ (and63_lt _)).mp h.2.1
      have e2 : c &&& 63 = 13 := (k2 _ (and63_lt _)).mp h.2.2
      rw [shiftRight12_eq] at e0
      rw [shiftRight6_eq, and63_eq] at e1
      rw [and63_eq] at e2
      omega
    · simp at h
  · intro h
    subst h
    rfl

theorem zwj_eq_encode : ZERO_WIDTH_JOINER = utf8EncodeCP 0x200d := rfl

theorem vs_eq_encode : VARIATION_SELECTOR = utf8EncodeCP 0xfe0f := rfl

theorem variation_selector_nil : variation_selector [] = .ok none := rfl

/-- Running `variation_selector` on a suffix whose first code point is the scalar `c`:
it matches exactly when `c` is U+FE0F, and consumes nothing otherwise. -/
theorem variation_selector_encode (c : Nat) (rest : List Nat) (hc : IsScalar c) :
    variation_selector (utf8EncodeCP c ++ rest) =
      .ok (if c = 0xfe0f then some (utf8EncodeCP c, rest) else none) := by
  unfold variation_selector
  simp only [next_code_point_encode c rest hc]
  by_cases h : c = 0xfe0f
  · rw [if_pos ((encode_eq_vs_iff c hc).mpr h), if_pos h]
  · rw [if_neg (fun hh => h ((encode_eq_vs_iff c hc).mp hh)), if_neg h]

theorem zero_width_joiner_nil : zero_width_joiner [] = .ok none := rfl

/-- Running `zero_width_joiner` on a suffix whose first code point is not U+200D:
no match, nothing consumed. -/
theorem zero_width_joiner_encode_ne (c : Nat) (rest : List Nat) (hc : IsScalar c)
    (h : c ≠ 0x200d) :
    zero_width_joiner (utf8EncodeCP c ++ rest) = .ok none := by
  unfold zero_width_joiner
  simp only [next_code_point_encode c rest hc]
  rw [if_pos (fun hh => h ((encode_eq_zwj_iff c hc).mp hh))]

/-- Running `zero_width_joiner` on a suffix that starts with U+200D followed by the
code point `c2`: both are consumed as one unit. -/
theorem zero_width_joiner_chain (c2 : Nat) (rest2 : List Nat) (hc2 : IsScalar c2) :
    zero_width_joiner (ZERO_WIDTH_JOINER ++ (utf8EncodeCP c2 ++ rest2)) =
      .ok (some (ZERO_WIDTH_JOINER ++ utf8EncodeCP c2, rest2)) := by
  unfold zero_width_joiner
  have h1 : next_code_point (ZERO_WIDTH_JOINER ++ (utf8EncodeCP c2 ++ rest2)) =
      .ok (some (ZERO_WIDTH_JOINER, utf8EncodeCP c2 ++ rest2)) :=
    next_code_point_encode 0x200d (utf8EncodeCP c2 ++ rest2) (by decide)
  simp only [h1]
  rw [if_neg (by simp)]
  simp only [next_code_point_encode c2 rest2 hc2]
  rw [take_len_append]

/-- Running `zero_width_joiner` on a suffix that is exactly a trailing U+200D:
the dangling joiner is returned as its own unit with an empty remainder. -/
theorem zero_width_joiner_dangling :
    zero_width_joiner ZERO_WIDTH_JOINER = .ok (some (ZERO_WIDTH_JOINER, [])) := rfl

/-- On a valid suffix the variation-selector recognizer never panics, and a
match splits the suffix into the selector and a valid remainder. -/
theorem variation_selector_valid (bs : List Nat) (hv : ValidUTF8 bs) :
    variation_selector bs = .ok none ∨
      ∃ v vrem, variation_selector bs = .ok (some (v, vrem)) ∧
        bs = v ++ vrem ∧ v ≠ [] ∧ ValidUTF8 vrem := by
  cases hv with
  | nil => exact Or.inl variation_selector_nil
  | cons c rest hc hrest =>
    rw [variation_selector_encode c rest hc]
    by_cases h : c = 0xfe0f
    · right
      refine ⟨utf8EncodeCP c, rest, ?_, rfl, utf8EncodeCP_ne_nil c, hrest⟩
      rw [if_pos h]
    · left
      rw [if_neg h]

/-- On a valid suffix the zero-width-joiner recognizer never panics, and a
match splits the suffix into the consumed unit and a valid remainder. -/
theorem zero_width_joiner_valid (bs : List Nat) (hv : ValidUTF8 bs) :
    zero_width_joiner bs = .ok none ∨
      ∃ j jrem, zero_width_joiner bs = .ok (some (j, jrem)) ∧
        bs = j ++ jrem ∧ ValidUTF8 jrem := by
  cases hv with
  | nil => exact Or.inl zero_width_joiner_nil
  | cons c rest hc hrest =>
    by_cases h : c = 0x200d
    · subst h
      right
      cases hrest with
      | nil =>
        refine ⟨utf8EncodeCP 0x200d, [], ?_, by simp, ValidUTF8.nil⟩
        rw [← zwj_eq_encode]
        exact zero_width_joiner_dangling
      | cons c2 rest2 hc2 hrest2 =>
        refine ⟨utf8EncodeCP 0x200d ++ utf8EncodeCP c2, rest2, ?_, by simp, hrest2⟩
        rw [← zwj_eq_encode]
        exact zero_width_joiner_chain c2 rest2 hc2
    · exact Or.inl (zero_width_joiner_encode_ne c rest hc h)

/-- On a valid suffix the joiner-chaining loop never panics: it consumes some
valid-aligned group `g`, adds exactly `g.length` to the running length, and
leaves a valid remainder. -/
theorem zwj_extend_valid :
    ∀ n rem, rem.length ≤ n → ValidUTF8 rem → ∀ len,
      ∃ g rem2, zwj_extend len rem = .ok (len + g.length, rem2) ∧
        rem = g ++ rem2 ∧ ValidUTF8 rem2 := by
  intro n
  induction n with
  | zero =>
    intro rem hle hv len
    have : rem = [] := List.eq_nil_of_length_eq_zero (by omega)
    subst this
    exact ⟨[], [], by rw [zwj_extend_of_none len zero_width_joiner_nil]; simp, rfl, ValidUTF8.nil⟩
  | succ n ih =>
    intro rem hle hv len
    rcases zero_width_joiner_valid rem hv with hnone | ⟨j, jrem, hsome, hsplit, hvrem⟩
    · exact ⟨[], rem, by rw [zwj_extend_of_none len hnone]; simp, rfl, hv⟩
    · have hsh := zero_width_joiner_shrink hsome
      obtain ⟨g2, rem2, hrec, hsplit2, hv2⟩ := ih jrem (by omega) hvrem (len + j.length)
      refine ⟨j ++ g2, rem2, ?_, ?_, hv2⟩
      · rw [zwj_extend_of_some len hsome, hrec]
        simp [List.length_append]
        omega
      · rw [hsplit, hsplit2, List.append_assoc]

/-- On a non-empty valid buffer, one call to `UTF8Chars::next` succeeds,
yields a non-empty extended character that is a prefix of the buffer, and
leaves the valid remainder as the new state. -/
theorem UTF8Chars_next_valid (bytes : List Nat) (hv : ValidUTF8 bytes)
    (hne : bytes ≠ []) :
    ∃ c rest, UTF8Chars_next bytes = .ok (some c, rest) ∧
      bytes = c ++ rest ∧ c ≠ [] ∧ ValidUTF8 rest := by
  cases hv with
  | nil => exact absurd rfl hne
  | cons c0 rest0 hc0 hrest0 =>
    have hncp := next_code_point_encode c0 rest0 hc0
    rcases variation_selector_valid rest0 hrest0 with hvs | ⟨v, vrem, hvs, hvsplit, hvne, hvvalid⟩
    · obtain ⟨g, rem2, hz, hzsplit, hzvalid⟩ :=
        zwj_extend_valid rest0.length rest0 le_rfl hrest0 (utf8EncodeCP c0).length
      refine ⟨utf8EncodeCP c0 ++ g, rem2, ?_, ?_, ?_, hzvalid⟩
      · rw [UTF8Chars_next_eq_no_vs hncp hvs hz]
        rw [hzsplit, take_len_append]
      · rw [hzsplit, List.append_assoc]
      · simp [utf8EncodeCP_ne_nil c0]
    · obtain ⟨g, rem2, hz, hzsplit, hzvalid⟩ :=
        zwj_extend_valid vrem.length vrem le_rfl hvvalid
          ((utf8EncodeCP c0).length + v.length)
      refine ⟨utf8EncodeCP c0 ++ v ++ g, rem2, ?_, ?_, ?_, hzvalid⟩
      · rw [UTF8Chars_next_eq_vs hncp hvs hz]
        rw [hvsplit, hzsplit]
        rw [show utf8EncodeCP c0 ++ (v ++ (g ++ rem2)) =
          (utf8EncodeCP c0 ++ v) ++ (g ++ rem2) from by simp [List.append_assoc]]
        rw [show (utf8EncodeCP c0).length + v.length + g.length =
          (utf8EncodeCP c0 ++ v).length + g.length from by simp [List.length_append]]
        rw [take_len_append]
      · rw [hvsplit, hzsplit]
        simp [List.append_assoc]
      · simp [utf8EncodeCP_ne_nil c0]

/-- The full scan of a valid buffer never panics; the yielded extended
characters are non-empty, there are at most `bytes.length` of them, and
their concatenation is exactly the original buffer. -/
theorem scan_valid :
    ∀ n bytes, bytes.length ≤ n → ValidUTF8 bytes →
      ∃ cs, utf8_chars_list bytes = .ok cs ∧ cs.flatten = bytes ∧
        cs.length ≤ bytes.length ∧ ∀ c ∈ cs, c ≠ [] := by
  intro n
  induction n with
  | zero =>
    intro bytes hle hv
    have : bytes = [] := List.eq_nil_of_length_eq_zero (by omega)
    subst this
    exact ⟨[], utf8_chars_list_nil, rfl, by simp, by simp⟩
  | succ n ih =>
    intro bytes hle hv
    by_cases hne : bytes = []
    · subst hne
      exact ⟨[], utf8_chars_list_nil, rfl, by simp, by simp⟩
    · obtain ⟨c, rest, hnext, hsplit, hcne, hvrest⟩ := UTF8Chars_next_valid bytes hv hne
      have hsh := UTF8Chars_next_shrink hnext
      obtain ⟨cs, hscan, hjoin, hcount, hnn⟩ := ih rest (by omega) hvrest
      refine ⟨c :: cs, utf8_chars_list_cons_eq hnext hscan, ?_, ?_, ?_⟩
      · rw [List.flatten_cons, hjoin, hsplit]
      · have : 1 ≤ c.length := by
          cases c with
          | nil => exact absurd rfl hcne
          | cons a as => simp
        have hlen : bytes.length = c.length + rest.length := by
          rw [hsplit, List.length_append]
        simp only [List.length_cons]
        omega
      · intro x hx
        rcases List.mem_cons.mp hx with h | h
        · subst h; exact hcne
        · exact hnn x h

theorem next_code_point_none {bs : List Nat} (h : next_code_point bs = .ok none) :
    bs = [] := by
  unfold next_code_point at h
  split at h
  · rename_i he
    exact List.isEmpty_iff.mp he
  · split at h
    · cases h
    · split at h
      · cases h
      · cases h

theorem variation_selector_shrink {bs v r : List Nat}
    (h : variation_selector bs = .ok (some (v, r))) :
    v.length + r.length = bs.length ∧ 1 ≤ v.length := by
  unfold variation_selector at h
  split at h
  · cases h
  · cases h
  · rename_i cp rem hncp
    split at h
    · cases h
      exact next_code_point_shrink hncp
    · cases h

theorem take_ne_nil_of_pos {bs : List Nat} {len : Nat} (hne : bs ≠ [])
    (hlen : 1 ≤ len) : bs.take len ≠ [] := by
  cases bs with
  | nil => exact absurd rfl hne
  | cons b bb =>
    cases len with
    | zero => omega
    | succ l => simp

/-- Any item yielded by one `next` call is a non-empty span, and the call
strictly shrinks the cursor. -/
theorem UTF8Chars_next_some_spec {bytes c rest : List Nat}
    (h : UTF8Chars_next bytes = .ok (some c, rest)) :
    c ≠ [] ∧ rest.length < bytes.length := by
  unfold UTF8Chars_next at h
  split at h
  · simp at h
  · rename_i hemp
    have hbne : bytes ≠ [] := by
      cases bytes with
      | nil => simp at hemp
      | cons b bb => simp
    split at h
    · cases h
    · simp at h
    · rename_i cp rem hncp
      have h1 := next_code_point_shrink hncp
      split at h
      · cases h
      · split at h
        · cases h
        · rename_i len fin hz
          cases h
          have h2 := zwj_extend_spec hz
          exact ⟨take_ne_nil_of_pos hbne (by omega), by omega⟩
      · rename_i v vrem hvs
        have h3 := variation_selector_shrink hvs
        split at h
        · cases h
        · rename_i len fin hz
          cases h
          have h2 := zwj_extend_spec hz
          exact ⟨take_ne_nil_of_pos hbne (by omega), by omega⟩

/-- The scan yields at most one item per input byte. -/
theorem scan_count :
    ∀ n bs, bs.length ≤ n → ∀ cs, utf8_chars_list bs = .ok cs →
      cs.length ≤ bs.length := by
  intro n
  induction n with
  | zero =>
    intro bs hle cs h
    have : bs = [] := List.eq_nil_of_length_eq_zero (by omega)
    subst this
    rw [utf8_chars_list_nil] at h
    cases h
    simp
  | succ n ih =>
    intro bs hle cs h
    match hnext : UTF8Chars_next bs with
    | .error e =>
      rw [utf8_chars_list_of_err hnext] at h
      cases h
    | .ok (none, s2) =>
      rw [utf8_chars_list_of_none hnext] at h
      cases h
      simp
    | .ok (some c, rest) =>
      have hsh := UTF8Chars_next_shrink hnext
      rw [utf8_chars_list_of_some hnext] at h
      match hrec : utf8_chars_list rest with
      | .error e =>
        simp only [hrec] at h
        cases h
      | .ok cs2 =>
        simp only [hrec] at h
        cases h
        have hc := ih rest (by omega) cs2 hrec
        simp only [List.length_cons]
        omega

/-- Concrete evaluation of one `next` step on the single byte of `"A"`. -/
theorem UTF8Chars_next_single_A : UTF8Chars_next [0x41] = .ok (some [0x41], []) :=
  UTF8Chars_next_eq_no_vs
    (show next_code_point [0x41] = .ok (some ([0x41], [])) from rfl)
    (show variation_selector [] = .ok none from rfl)
    (zwj_extend_of_none 1 (show zero_width_joiner [] = .ok none from rfl))

/-- A buffer made of (joiner, code point) groups never starts with the
variation selector. -/
theorem variation_selector_joins (cps : List Nat) (h : ∀ c ∈ cps, IsScalar c) :
    variation_selector
      ((cps.map fun c => ZERO_WIDTH_JOINER ++ utf8EncodeCP c).flatten) = .ok none := by
  cases cps with
  | nil => exact variation_selector_nil
  | cons c1 cps2 =>
    simp only [List.map_cons, List.flatten_cons, List.append_assoc]
    rw [zwj_eq_encode]
    rw [variation_selector_encode 0x200d _ (by decide)]
    rw [if_neg (by decide)]

/-- The joiner-chaining loop consumes a whole buffer made of
(joiner, code point) groups in one run. -/
theorem zwj_extend_joins :
    ∀ cps : List Nat, (∀ c ∈ cps, IsScalar c) → ∀ len,
      zwj_extend len ((cps.map fun c => ZERO_WIDTH_JOINER ++ utf8EncodeCP c).flatten) =
        .ok (len + ((cps.map fun c => ZERO_WIDTH_JOINER ++ utf8EncodeCP c).flatten).length,
          []) := by
  intro cps
  induction cps with
  | nil =>
    intro h len
    simp only [List.map_nil, List.flatten_nil]
    rw [zwj_extend_of_none len zero_width_joiner_nil]
    simp
  | cons c1 cps2 ih =>
    intro h len
    have hc1 : IsScalar c1 := h c1 (by simp)
    have hrest : ∀ c ∈ cps2, IsScalar c := fun c hc => h c (by simp [hc])
    simp only [List.map_cons, List.flatten_cons, List.append_assoc]
    have hchain := zero_width_joiner_chain c1
      ((cps2.map fun c => ZERO_WIDTH_JOINER ++ utf8EncodeCP c).flatten) hc1
    rw [zwj_extend_of_some len hchain]
    rw [ih hrest]
    simp [List.length_append]
    omega

/-- One `next` call on a buffer of the shape
base ∥ optional-selector ∥ (joiner, code point)* consumes the whole buffer
as a single extended character. -/
theorem UTF8Chars_next_shape (base : Nat) (vs : List Nat) (cps : List Nat)
    (hbase : IsScalar base) (hvs : vs = [] ∨ vs = VARIATION_SELECTOR)
    (hcps : ∀ c ∈ cps, IsScalar c) :
    UTF8Chars_next
        (utf8EncodeCP base ++
          (vs ++ (cps.map fun c => ZERO_WIDTH_JOINER ++ utf8EncodeCP c).flatten)) =
      .ok (some (utf8EncodeCP base ++
        (vs ++ (cps.map fun c => ZERO_WIDTH_JOINER ++ utf8EncodeCP c).flatten)), []) := by
  rcases hvs with rfl | rfl
  · simp only [List.nil_append]
    have hncp := next_code_point_encode base
      ((cps.map fun c => ZERO_WIDTH_JOINER ++ utf8EncodeCP c).flatten) hbase
    have hvsn := variation_selector_joins cps hcps
    have hz := zwj_extend_joins cps hcps (utf8EncodeCP base).length
    rw [UTF8Chars_next_eq_no_vs hncp hvsn hz]
    rw [← List.length_append, List.take_length]
  · have hncp := next_code_point_encode base
      (VARIATION_SELECTOR ++ (cps.map fun c => ZERO_WIDTH_JOINER ++ utf8EncodeCP c).flatten)
      hbase
    have hvss : variation_selector
        (VARIATION_SELECTOR ++ (cps.map fun c => ZERO_WIDTH_JOINER ++ utf8EncodeCP c).flatten) =
        .ok (some (VARIATION_SELECTOR,
          (cps.map fun c => ZERO_WIDTH_JOINER ++ utf8EncodeCP c).flatten)) := by
      rw [vs_eq_encode, variation_selector_encode 0xfe0f _ (by decide), if_pos rfl]
    have hz := zwj_extend_joins cps hcps
      ((utf8EncodeCP base).length + VARIATION_SELECTOR.length)
    rw [UTF8Chars_next_eq_vs hncp hvss hz]
    rw [Nat.add_assoc, ← List.length_append, ← List.length_append, List.take_length]

/-- A buffer of the shape base ∥ optional-selector ∥ (joiner, code point)*
scans to exactly one extended character equal to the whole buffer. -/
theorem scan_shape_single (base : Nat) (vs : List Nat) (cps : List Nat)
    (hbase : IsScalar base) (hvs : vs = [] ∨ vs = VARIATION_SELECTOR)
    (hcps : ∀ c ∈ cps, IsScalar c) :
    utf8_chars_list
        (utf8EncodeCP base ++
          (vs ++ (cps.map fun c => ZERO_WIDTH_JOINER ++ utf8EncodeCP c).flatten)) =
      .ok [utf8EncodeCP base ++
        (vs ++ (cps.map fun c => ZERO_WIDTH_JOINER ++ utf8EncodeCP c).flatten)] :=
  utf8_chars_list_cons_eq (UTF8Chars_next_shape base vs cps hbase hvs hcps)
    utf8_chars_list_nil

/-- C1: For every valid-UTF-8 input buffer, a full scan of the segmenter
succeeds and the concatenation of the byte spans of all yielded extended
characters reproduces the original buffer exactly, with no gaps and no
overlaps between consecutive spans. -/
theorem scan_reconstructs_buffer (bytes : List Nat) (hv : ValidUTF8 bytes) :
    ∃ cs, utf8_chars_list bytes = .ok cs ∧ cs.flatten = bytes := by
  obtain ⟨cs, h1, h2, -, -⟩ := scan_valid bytes.length bytes le_rfl hv
  exact ⟨cs, h1, h2⟩

theorem scan_reconstructs_buffer_witness :
    ∃ cs, utf8_chars_list [0x41, 0xc2, 0xb1] = .ok cs ∧
      cs.flatten = [0x41, 0xc2, 0xb1] :=
  scan_reconstructs_buffer [0x41, 0xc2, 0xb1]
    (ValidUTF8.cons 0x41 [0xc2, 0xb1] (by decide)
      (ValidUTF8.cons 0xb1 [] (by decide) ValidUTF8.nil))

theorem and_mask_of_and_mask {b m k v : Nat} (hmk : m &&& k = k) (h : b &&& m = v) :
    b &&& k = v &&& k := by
  have e : b &&& (m &&& k) = (b &&& m) &&& k := (Nat.and_assoc b m k).symm
  rw [hmk] at e
  rw [e, h]

/-- C2: For every non-empty byte slice whose first byte is a valid UTF-8
leading byte, `code_point_len` returns exactly 1 for `0xxxxxxx`, 2 for
`110xxxxx`, 3 for `1110xxxx` and 4 for `11110xxx`; in particular the first
bytes of "A", "±", "⚽" and "🫥" give 1, 2, 3, 4. -/
theorem code_point_len_table :
    (∀ b rest, b &&& 0b10000000 = 0 → code_point_len (b :: rest) = .ok 1) ∧
    (∀ b rest, b &&& 0b11100000 = 0b11000000 → code_point_len (b :: rest) = .ok 2) ∧
    (∀ b rest, b &&& 0b11110000 = 0b11100000 → code_point_len (b :: rest) = .ok 3) ∧
    (∀ b rest, b &&& 0b11111000 = 0b11110000 → code_point_len (b :: rest) = .ok 4) ∧
    code_point_len [0x41] = .ok 1 ∧ code_point_len [0xc2, 0xb1] = .ok 2 ∧
    code_point_len [0xe2, 0x9a, 0xbd] = .ok 3 ∧
    code_point_len [0xf0, 0x9f, 0xab, 0xa5] = .ok 4 := by
  refine ⟨?_, ?_, ?_, ?_, rfl, rfl, rfl, rfl⟩
  · intro b rest h
    rw [code_point_len_cons, if_pos h]
  · intro b rest h
    have h128 := and_mask_of_and_mask (m := 224) (k := 128) (by decide) h
    rw [code_point_len_cons, if_neg (by rw [h128]; decide), if_pos h]
  · intro b rest h
    have h128 := and_mask_of_and_mask (m := 240) (k := 128) (by decide) h
    have h224 := and_mask_of_and_mask (m := 240) (k := 224) (by decide) h
    rw [code_point_len_cons, if_neg (by rw [h128]; decide),
      if_neg (by rw [h224]; decide), if_pos h]
  · intro b rest h
    have h128 := and_mask_of_and_mask (m := 248) (k := 128) (by decide) h
    have h224 := and_mask_of_and_mask (m := 248) (k := 224) (by decide) h
    have h240 := and_mask_of_and_mask (m := 248) (k := 240) (by decide) h
    rw [code_point_len_cons, if_neg (by rw [h128]; decide),
      if_neg (by rw [h224]; decide), if_neg (by rw [h240]; decide), if_pos h]

theorem code_point_len_table_witness :
    (0x41 &&& 0b10000000 = 0 ∧ code_point_len [0x41, 0x42] = .ok 1) ∧
    (0xc2 &&& 0b11100000 = 0b11000000 ∧ code_point_len [0xc2, 0xb1] = .ok 2) ∧
    (0xe2 &&& 0b11110000 = 0b11100000 ∧ code_point_len [0xe2, 0x9a] = .ok 3) ∧
    (0xf0 &&& 0b11111000 = 0b11110000 ∧ code_point_len [0xf0, 0x9f] = .ok 4) :=
  ⟨⟨by decide, code_point_len_table.1 0x41 [0x42] (by decide)⟩,
    ⟨by decide, code_point_len_table.2.1 0xc2 [0xb1] (by decide)⟩,
    ⟨by decide, code_point_len_table.2.2.1 0xe2 [0x9a] (by decide)⟩,
    ⟨by decide, code_point_len_table.2.2.2.1 0xf0 [0x9f] (by decide)⟩⟩

/-- C3: For every non-empty byte slice whose first byte matches none of the
four valid leading-byte patterns, `code_point_len` panics with a diagnostic
carrying the offending byte, and never returns a length. -/
theorem code_point_len_invalid_first_byte (b : Nat) (rest : List Nat)
    (h1 : ¬b &&& 0b10000000 = 0) (h2 : ¬b &&& 0b11100000 = 0b11000000)
    (h3 : ¬b &&& 0b11110000 = 0b11100000) (h4 : ¬b &&& 0b11111000 = 0b11110000) :
    code_point_len (b :: rest) = .error (.invalidFirstByte b) := by
  rw [code_point_len_cons, if_neg h1, if_neg h2, if_neg h3, if_neg h4]

theorem code_point_len_invalid_first_byte_witness :
    code_point_len [0x80] = .error (.invalidFirstByte 0x80) ∧
    code_point_len [0xff] = .error (.invalidFirstByte 0xff) :=
  ⟨code_point_len_invalid_first_byte 0x80 [] (by decide) (by decide) (by decide)
      (by decide),
    code_point_len_invalid_first_byte 0xff [] (by decide) (by decide) (by decide)
      (by decide)⟩

/-- C4: On the empty suffix the variation-selector recognizer reports "not
present"; on a suffix of valid, aligned UTF-8 whose first code point is the
scalar `c`, it returns the selector's bytes and the remainder after them
exactly when `c` is U+FE0F, and otherwise reports "not present" without
consuming anything. -/
theorem variation_selector_spec :
    variation_selector [] = .ok none ∧
    ∀ c rest, IsScalar c →
      variation_selector (utf8EncodeCP c ++ rest) =
        .ok (if c = 0xfe0f then some (utf8EncodeCP c, rest) else none) :=
  ⟨variation_selector_nil, variation_selector_encode⟩

theorem variation_selector_spec_witness :
    (IsScalar 0xfe0f ∧
      variation_selector (utf8EncodeCP 0xfe0f ++ [0x41]) =
        .ok (if 0xfe0f = 0xfe0f then some (utf8EncodeCP 0xfe0f, [0x41]) else none)) ∧
    (IsScalar 0x41 ∧
      variation_selector (utf8EncodeCP 0x41 ++ []) =
        .ok (if 0x41 = 0xfe0f then some (utf8EncodeCP 0x41, []) else none)) :=
  ⟨⟨by decide, variation_selector_spec.2 0xfe0f [0x41] (by decide)⟩,
    ⟨by decide, variation_selector_spec.2 0x41 [] (by decide)⟩⟩

/-- C5: The zero-width-joiner recognizer reports "not present" with no
consumption on an empty suffix or when the first code point is not U+200D;
when the first code point is U+200D and another code point follows it
returns the combined joiner-plus-follower span and the remainder after
both; when U+200D ends the suffix it returns just the joiner's bytes with
an empty remainder rather than an error. -/
theorem zero_width_joiner_spec :
    zero_width_joiner [] = .ok none ∧
    (∀ c rest, IsScalar c → c ≠ 0x200d →
      zero_width_joiner (utf8EncodeCP c ++ rest) = .ok none) ∧
    (∀ c2 rest2, IsScalar c2 →
      zero_width_joiner (ZERO_WIDTH_JOINER ++ (utf8EncodeCP c2 ++ rest2)) =
        .ok (some (ZERO_WIDTH_JOINER ++ utf8EncodeCP c2, rest2))) ∧
    zero_width_joiner ZERO_WIDTH_JOINER = .ok (some (ZERO_WIDTH_JOINER, [])) :=
  ⟨zero_width_joiner_nil, zero_width_joiner_encode_ne, zero_width_joiner_chain,
    zero_width_joiner_dangling⟩

theorem zero_width_joiner_spec_witness :
    (IsScalar 0x41 ∧ 0x41 ≠ 0x200d ∧
      zero_width_joiner (utf8EncodeCP 0x41 ++ []) = .ok none) ∧
    (IsScalar 0x1f308 ∧
      zero_width_joiner (ZERO_WIDTH_JOINER ++ (utf8EncodeCP 0x1f308 ++ [])) =
        .ok (some (ZERO_WIDTH_JOINER ++ utf8EncodeCP 0x1f308, []))) :=
  ⟨⟨by decide, by decide, zero_width_joiner_spec.2.1 0x41 [] (by decide) (by decide)⟩,
    ⟨by decide, zero_width_joiner_spec.2.2.1 0x1f308 [] (by decide)⟩⟩

/-- C6: Every valid buffer of the shape one base code point, optionally
followed by U+FE0F, followed by any number of (U+200D, code point) pairs,
scans to exactly one extended character equal to the whole buffer and then
end-of-sequence; in particular the byte sequences of
"👨\u{200d}👩\u{200d}👦" and "🏳\u{fe0f}\u{200d}🌈" do. -/
theorem scan_single_extended_char :
    (∀ (base : Nat) (vs : List Nat) (cps : List Nat),
      IsScalar base → (vs = [] ∨ vs = VARIATION_SELECTOR) →
      (∀ c ∈ cps, IsScalar c) →
      utf8_chars_list
          (utf8EncodeCP base ++
            (vs ++ (cps.map fun c => ZERO_WIDTH_JOINER ++ utf8EncodeCP c).flatten)) =
        .ok [utf8EncodeCP base ++
          (vs ++ (cps.map fun c => ZERO_WIDTH_JOINER ++ utf8EncodeCP c).flatten)]) ∧
    utf8_chars_list
        [0xf0, 0x9f, 0x91, 0xa8, 0xe2, 0x80, 0x8d, 0xf0, 0x9f, 0x91, 0xa9,
          0xe2, 0x80, 0x8d, 0xf0, 0x9f, 0x91, 0xa6] =
      .ok [[0xf0, 0x9f, 0x91, 0xa8, 0xe2, 0x80, 0x8d, 0xf0, 0x9f, 0x91, 0xa9,
        0xe2, 0x80, 0x8d, 0xf0, 0x9f, 0x91, 0xa6]] ∧
    utf8_chars_list
        [0xf0, 0x9f, 0x8f, 0xb3, 0xef, 0xb8, 0x8f, 0xe2, 0x80, 0x8d,
          0xf0, 0x9f, 0x8c, 0x88] =
      .ok [[0xf0, 0x9f, 0x8f, 0xb3, 0xef, 0xb8, 0x8f, 0xe2, 0x80, 0x8d,
        0xf0, 0x9f, 0x8c, 0x88]] := by
  refine ⟨scan_shape_single, ?_, ?_⟩
  · have h := scan_shape_single 0x1f468 [] [0x1f469, 0x1f466] (by decide)
      (Or.inl rfl) (by decide)
    have e : utf8EncodeCP 0x1f468 ++
        ([] ++ ([0x1f469, 0x1f466].map fun c =>
          ZERO_WIDTH_JOINER ++ utf8EncodeCP c).flatten) =
        [0xf0, 0x9f, 0x91, 0xa8, 0xe2, 0x80, 0x8d, 0xf0, 0x9f, 0x91, 0xa9,
          0xe2, 0x80, 0x8d, 0xf0, 0x9f, 0x91, 0xa6] := by decide
    rw [e] at h
    exact h
  · have h := scan_shape_single 0x1f3f3 VARIATION_SELECTOR [0x1f308] (by decide)
      (Or.inr rfl) (by decide)
    have e : utf8EncodeCP 0x1f3f3 ++
        (VARIATION_SELECTOR ++ ([0x1f308].map fun c =>
          ZERO_WIDTH_JOINER ++ utf8EncodeCP c).flatten) =
        [0xf0, 0x9f, 0x8f, 0xb3, 0xef, 0xb8, 0x8f, 0xe2, 0x80, 0x8d,
          0xf0, 0x9f, 0x8c, 0x88] := by decide
    rw [e] at h
    exact h

theorem scan_single_extended_char_witness :
    IsScalar 0x1f468 ∧ (([] : List Nat) = [] ∨ ([] : List Nat) = VARIATION_SELECTOR) ∧
      (∀ c ∈ [0x200d], IsScalar c) ∧
      utf8_chars_list
          (utf8EncodeCP 0x1f468 ++
            (([] : List Nat) ++
              ([0x200d].map fun c => ZERO_WIDTH_JOINER ++ utf8EncodeCP c).flatten)) =
        .ok [utf8EncodeCP 0x1f468 ++
          (([] : List Nat) ++
            ([0x200d].map fun c => ZERO_WIDTH_JOINER ++ utf8EncodeCP c).flatten)] :=
  ⟨by decide, Or.inl rfl, by decide,
    scan_single_extended_char.1 0x1f468 [] [0x200d] (by decide) (Or.inl rfl) (by decide)⟩

/-- C7: Once a `next` call yields end-of-sequence, every subsequent call
also yields end-of-sequence, without panicking and without yielding any
further item. -/
theorem exhaustion_stable (s s2 : List Nat)
    (h : UTF8Chars_next s = .ok (none, s2)) :
    ∀ n, iterate_next s2 n = .ok (none, s2) := by
  have hs : s2 = [] := by
    unfold UTF8Chars_next at h
    split at h
    · rename_i hemp
      cases h
      exact List.isEmpty_iff.mp hemp
    · rename_i hemp
      split at h
      · cases h
      · rename_i hncp
        cases h
        exact absurd (by rw [next_code_point_none hncp]; rfl) hemp
      · split at h
        · cases h
        · split at h
          · cases h
          · simp at h
        · split at h
          · cases h
          · simp at h
  subst hs
  intro n
  induction n with
  | zero => rfl
  | succ n ihn => exact ihn

theorem exhaustion_stable_witness : iterate_next [] 5 = .ok (none, []) :=
  exhaustion_stable [] [] rfl 5

/-- C8: Segmentation is deterministic: two independent invocations of the
"view as extended characters" capability on the same text yield identical
sequences of spans. -/
theorem scan_deterministic (t1 t2 : List Nat) (h : t1 = t2) :
    utf8_chars_list (utf8_chars t1) = utf8_chars_list (utf8_chars t2) := by
  rw [h]

theorem scan_deterministic_witness :
    utf8_chars_list (utf8_chars [0x41, 0xc2, 0xb1]) =
      utf8_chars_list (utf8_chars [0x41, 0xc2, 0xb1]) :=
  scan_deterministic [0x41, 0xc2, 0xb1] [0x41, 0xc2, 0xb1] rfl

/-- C9: Each `next` call terminates because every zero-width-joiner match
strictly shrinks the remaining suffix; every item yielded is non-empty and
shrinks the cursor; and a full scan yields at most buffer-length items. -/
theorem scan_terminates_bounded :
    (∀ bs j r, zero_width_joiner bs = .ok (some (j, r)) → r.length < bs.length) ∧
    (∀ bs c rest, UTF8Chars_next bs = .ok (some c, rest) →
      c ≠ [] ∧ rest.length < bs.length) ∧
    (∀ bs cs, utf8_chars_list bs = .ok cs → cs.length ≤ bs.length) :=
  ⟨fun _ _ _ h => zero_width_joiner_shrink h,
    fun _ _ _ h => UTF8Chars_next_some_spec h,
    fun bs cs h => scan_count bs.length bs le_rfl cs h⟩

theorem scan_terminates_bounded_witness :
    (([] : List Nat).length < ZERO_WIDTH_JOINER.length) ∧
    ([0x41] ≠ ([] : List Nat) ∧ ([] : List Nat).length < [0x41].length) ∧
    ([[0x41]] : List (List Nat)).length ≤ [0x41].length :=
  ⟨scan_terminates_bounded.1 ZERO_WIDTH_JOINER ZERO_WIDTH_JOINER []
      zero_width_joiner_dangling,
    scan_terminates_bounded.2.1 [0x41] [0x41] [] UTF8Chars_next_single_A,
    scan_terminates_bounded.2.2 [0x41] [[0x41]]
      (utf8_chars_list_cons_eq UTF8Chars_next_single_A utf8_chars_list_nil)⟩

/-- C10: `code_point_len` panics with an index-out-of-bounds on the empty
slice, and inside the library this is unreachable because `next_code_point`
returns "no more input" on the empty slice before calling it. -/
theorem code_point_len_empty_panics :
    code_point_len [] = .error .indexOutOfBounds ∧
    next_code_point [] = .ok none :=
  ⟨rfl, rfl⟩
